import Mathlib

/-!
# Verification of the Hel compute core

Shallow embedding of the tensor representation, the row-wise Q4 quantization
codec, the GEMM kernels and the causal attention engine of the Hel repository,
together with theorems settling the frozen specification claims.

Modelling conventions:
* C/C++ flat `float*` buffers are modelled as total functions `ℕ → ℚ`
  (exact rational arithmetic stands in for IEEE floats: every claim at stake
  is either structural or stated up to floating-point tolerance, and the
  divergences we exhibit are far beyond any rounding tolerance);
* `uint8_t*` buffers are modelled as `ℕ → ℕ` with reads reduced `% 256`
  (the value invariant of the C type);
* a loop nest that writes cells of an output buffer is modelled either by a
  `List.foldl` of single-cell writes (when one cell may be written several
  times, so that write order matters) or by a direct per-cell function (when
  each cell is written exactly once and independently of the others);
* a pure accumulation loop `sum += a[i] * b[i]` over exact rationals is
  modelled as `Finset.sum` (addition is associative/commutative, so the
  iteration order of the C loop is immaterial for the exact value);
* `std::exp` is modelled as an arbitrary parameter `e : ℚ → ℚ`; theorems
  that need facts about the exponential take them as hypotheses
  (strict positivity, `e 0 = 1`), all of which hold for the real exponential.
-/

namespace Hel

/-! ## Data model: dtypes and tensors (src/tensor.hpp, transformer.hpp) -/

/-- The dtype tag of a tensor (`enum class DType` in src/tensor.hpp). -/
inductive DType where
  | FP32
  | FP16
  | INT8
  | Q4
  deriving DecidableEq, Repr

/-- Error taxonomy of the spec: shape mismatches and dtype/access mismatches.
The C++ code throws `std::runtime_error` with distinguishing messages. -/
inductive TensorError where
  | ShapeError
  | TypeError
  deriving DecidableEq, Repr

/-- `Tensor::calculate_numel` (src/tensor.hpp): empty shape gives 0, otherwise
`std::accumulate(shape.begin(), shape.end(), 1, std::multiplies)`. -/
def calculate_numel (shape : List ℕ) : ℕ :=
  if shape = [] then 0 else shape.foldl (· * ·) 1

/-- `Tensor::calculate_byte_size` (src/tensor.hpp). -/
def calculate_byte_size (numel : ℕ) (dtype : DType) : ℕ :=
  match dtype with
  | .FP32 => numel * 4
  | .FP16 => numel * 2
  | .INT8 => numel * 1
  | .Q4 => (numel + 1) / 2

/-- A tensor: shape, dtype tag and its owned byte buffer
(`class Tensor` in src/tensor.hpp; the buffer is `byte_size` bytes). -/
structure Tensor where
  shape : List ℕ
  dtype : DType
  data : List ℕ
  deriving DecidableEq, Repr

/-- `Tensor::numel()`. -/
def Tensor.numel (t : Tensor) : ℕ := calculate_numel t.shape

/-- `Tensor::reshape` (src/tensor.hpp): throws unless the element counts
match, otherwise builds a tensor of the new shape and `memcpy`s the whole
byte buffer (same dtype, hence the same byte count). -/
def Tensor.reshape (t : Tensor) (new_shape : List ℕ) : Except TensorError Tensor :=
  if calculate_numel new_shape ≠ t.numel then
    .error .ShapeError
  else
    .ok { shape := new_shape, dtype := t.dtype, data := t.data }

/-- Byte-level view of a tensor buffer as a total function (reads past the
end of the buffer return 0; no theorem below depends on such reads). -/
def Tensor.byteAt (t : Tensor) (i : ℕ) : ℕ := t.data.getD i 0

/-! ## Q4 row-wise codec (src/src/kernels/q4_rowwise.cpp) -/

/-- `decode_q4_signed` (q4_rowwise.hpp): sign-extend a 4-bit two's-complement
nibble. -/
def decode_q4_signed (nib : ℕ) : ℤ :=
  if nib &&& 8 ≠ 0 then (nib : ℤ) - 16 else (nib : ℤ)

/-- Nibble extraction shared by `matvec_q4_rowwise` and
`dequantize_q4_rowwise`: read `packed_byte = qweights[(m*K+k)/2]`, then take
`packed_byte & 0x0F` for even `k` and `packed_byte >> 4` for odd `k`.  The
`% 256` read models the `uint8_t` storage type. -/
def nibbleAt (qweights : ℕ → ℕ) (K m k : ℕ) : ℕ :=
  if k % 2 = 0 then qweights ((m * K + k) / 2) % 256 % 16
  else qweights ((m * K + k) / 2) % 256 / 16

/-- `matvec_q4_rowwise` (q4_rowwise.cpp lines 5-22): for each row `m < M`,
`y[m] = scales[m] * Σ_k decode(nibble(m,k)) * x[k]`; cells `m ≥ M` are not
written. -/
def matvec_q4_rowwise (qweights : ℕ → ℕ) (scales x y : ℕ → ℚ) (M K : ℕ) : ℕ → ℚ :=
  fun m =>
    if m < M then
      scales m * ∑ k ∈ Finset.range K, (decode_q4_signed (nibbleAt qweights K m k) : ℚ) * x k
    else y m

/-- `dequantize_q4_rowwise` (q4_rowwise.cpp lines 53-66): writes
`out[m*K+k] = decode(nibble(m,k)) * scales[m]` for `m < M`, `k < K`.  The
write index `m*K+k` ranges bijectively over `[0, M*K)` with `m = i / K`,
`k = i % K`. -/
def dequantize_q4_rowwise (qweights : ℕ → ℕ) (scales out : ℕ → ℚ) (M K : ℕ) : ℕ → ℚ :=
  fun i =>
    if i < M * K then
      (decode_q4_signed (nibbleAt qweights K (i / K) (i % K)) : ℚ) * scales (i / K)
    else out i

/-- The non-Eigen fallback of `GemmRef::matvec` (gemm_ref.cpp lines 101-111):
`y[m] = alpha * Σ_k A[m*K+k] * x[k] + beta * y[m]` for `m < M`. -/
def gemmRef_matvec (A x y : ℕ → ℚ) (M K : ℕ) (alpha beta : ℚ) : ℕ → ℚ :=
  fun m =>
    if m < M then
      alpha * (∑ k ∈ Finset.range K, A (m * K + k) * x k) + beta * y m
    else y m

/-! ## C2: fused Q4 matvec agrees with dequantize-then-dense-matvec -/

theorem row_col_div (m k K : ℕ) (hk : k < K) : (m * K + k) / K = m := by
  rw [Nat.mul_comm, Nat.mul_add_div (by omega)]
  simp [Nat.div_eq_of_lt hk]

theorem row_col_mod (m k K : ℕ) (hk : k < K) : (m * K + k) % K = k := by
  rw [Nat.mul_comm, Nat.mul_add_mod]
  exact Nat.mod_eq_of_lt hk

theorem row_col_lt (m k M K : ℕ) (hm : m < M) (hk : k < K) : m * K + k < M * K := by
  calc m * K + k < m * K + K := by omega
  _ = (m + 1) * K := by ring
  _ ≤ M * K := Nat.mul_le_mul_right K hm

/-- C2: for every `M`, `K`, every packed Q4 weight buffer, every per-row
scale array and every input vector, the fused kernel `matvec_q4_rowwise`
produces exactly the same output buffer as first running
`dequantize_q4_rowwise` and then the dense reference matrix-vector multiply
(`GemmRef::matvec` with `alpha = 1`, `beta = 0`) of the dequantized matrix
with the vector.  Over exact arithmetic the agreement is exact, hence within
any floating-point tolerance. -/
theorem matvec_q4_fused_equiv (qweights : ℕ → ℕ) (scales x y out0 : ℕ → ℚ) (M K : ℕ) :
    matvec_q4_rowwise qweights scales x y M K
      = gemmRef_matvec (dequantize_q4_rowwise qweights scales out0 M K) x y M K 1 0 := by
  funext m
  unfold matvec_q4_rowwise gemmRef_matvec
  by_cases hm : m < M
  · simp only [if_pos hm, one_mul, zero_mul, add_zero]
    rw [Finset.mul_sum]
    refine Finset.sum_congr rfl ?_
    intro k hk
    rw [Finset.mem_range] at hk
    unfold dequantize_q4_rowwise
    rw [if_pos (row_col_lt m k M K hm hk), row_col_div m k K hk, row_col_mod m k K hk]
    ring
  · simp [hm]

/-! ## C7: numel and byte_size closed-form rules -/

/-- C7: for every shape and dtype, a tensor's `numel` is the product of its
dimensions (empty shape giving 0) and `byte_size` follows the closed-form
rule: 4 bytes per element for F32, 2 for F16, 1 for I8 and `⌈numel/2⌉`
bytes for Q4. -/
theorem tensor_byte_size_rule (shape : List ℕ) (dtype : DType) :
    calculate_numel shape = (if shape = [] then 0 else shape.prod) ∧
    (calculate_byte_size (calculate_numel shape) dtype : ℤ) =
      (match dtype with
       | .FP32 => 4 * (calculate_numel shape : ℤ)
       | .FP16 => 2 * (calculate_numel shape : ℤ)
       | .INT8 => (calculate_numel shape : ℤ)
       | .Q4 => ⌈(calculate_numel shape : ℚ) / 2⌉) := by
  constructor
  · unfold calculate_numel
    by_cases h : shape = []
    · simp [h]
    · simp only [if_neg h]
      rw [List.prod_eq_foldl]
  · generalize calculate_numel shape = n
    cases dtype with
    | FP32 => simp [calculate_byte_size]; ring
    | FP16 => simp [calculate_byte_size]; ring
    | INT8 => simp [calculate_byte_size]
    | Q4 =>
      simp only [calculate_byte_size]
      rcases Nat.even_or_odd n with ⟨t, ht⟩ | ⟨t, ht⟩
      · subst ht
        have h2 : ((t + t + 1) / 2 : ℕ) = t := by omega
        rw [h2]
        have : ((t + t : ℕ) : ℚ) / 2 = (t : ℚ) := by push_cast; ring
        rw [this, Int.ceil_natCast]
      · subst ht
        have h2 : ((2 * t + 1 + 1) / 2 : ℕ) = t + 1 := by omega
        rw [h2]
        have : ((2 * t + 1 : ℕ) : ℚ) / 2 = (1 / 2 : ℚ) + (t : ℚ) := by push_cast; ring
        rw [this]
        have hh : ⌈(1 / 2 : ℚ) + (t : ℚ)⌉ = ⌈(1 / 2 : ℚ)⌉ + t := by
          rw [← Int.ceil_add_int]
          norm_cast
        have hc : ⌈(1 / 2 : ℚ)⌉ = 1 := by
          have hcl : ⌈(1 / 2 : ℚ)⌉ ≤ 1 := Int.ceil_le.mpr (by norm_num)
          have hcp : 0 < ⌈(1 / 2 : ℚ)⌉ := Int.ceil_pos.mpr (by norm_num)
          omega
        rw [hh, hc]
        push_cast
        ring

/-! ## C8: reshape preserves numel, dtype and flat byte order -/

/-- C8: `reshape(new_shape)` fails with `ShapeError` exactly when the new
shape's element count differs from the tensor's `numel`; otherwise it
returns a new tensor of the requested shape and of the same dtype whose
buffer bytes are identical in the same flat order, so dequantizing the
reshaped Q4 tensor (for any `M`, `K`, scales) yields the same sequence of
values as dequantizing the original.  The source tensor is unchanged
(`reshape` is a `const` method; the model is a pure function of `t`). -/
theorem reshape_spec (t : Tensor) (ns : List ℕ) :
    (t.reshape ns = .error .ShapeError ↔ calculate_numel ns ≠ t.numel) ∧
    (∀ t', t.reshape ns = .ok t' →
      t'.shape = ns ∧ t'.dtype = t.dtype ∧ t'.numel = t.numel ∧ t'.data = t.data ∧
      ∀ scales out0 M K,
        dequantize_q4_rowwise t'.byteAt scales out0 M K
          = dequantize_q4_rowwise t.byteAt scales out0 M K) := by
  constructor
  · unfold Tensor.reshape
    by_cases h : calculate_numel ns ≠ t.numel
    · simp [h]
    · simp [h]
  · intro t' h
    unfold Tensor.reshape at h
    by_cases hne : calculate_numel ns ≠ t.numel
    · rw [if_pos hne] at h
      exact absurd h (by simp)
    · rw [if_neg hne] at h
      have ht' : t' = { shape := ns, dtype := t.dtype, data := t.data } := by
        cases h
        rfl
      subst ht'
      push_neg at hne
      refine ⟨rfl, rfl, hne, rfl, ?_⟩
      intro scales out0 M K
      rfl

/-- Witness for C8 at a concrete tensor: a `2×2` Q4 tensor (numel 4, two
packed bytes) reshaped to `[4]`. -/
theorem reshape_spec_witness :
    (Tensor.mk [4] .Q4 [5, 10]).shape = [4] ∧
    (Tensor.mk [4] .Q4 [5, 10]).dtype = (Tensor.mk [2, 2] .Q4 [5, 10]).dtype ∧
    (Tensor.mk [4] .Q4 [5, 10]).numel = (Tensor.mk [2, 2] .Q4 [5, 10]).numel ∧
    (Tensor.mk [4] .Q4 [5, 10]).data = (Tensor.mk [2, 2] .Q4 [5, 10]).data ∧
    ∀ scales out0 M K,
      dequantize_q4_rowwise (Tensor.mk [4] .Q4 [5, 10]).byteAt scales out0 M K
        = dequantize_q4_rowwise (Tensor.mk [2, 2] .Q4 [5, 10]).byteAt scales out0 M K :=
  (reshape_spec (Tensor.mk [2, 2] .Q4 [5, 10]) [4]).2
    (Tensor.mk [4] .Q4 [5, 10]) rfl

/-! ## C9: validation performed by FlashAttention::forward

`FlashAttention::forward` (flash_attention.cpp lines 16-100) checks, in
order: all three inputs are rank 3; the batch dimensions of key and value
match the query's; the hidden dimensions of key and value match the query's.
It never compares the sequence dimensions (`q_shape[1]` is used for all
three tensors) and never checks `hidden == num_heads * head_dim`.  A non-F32
dtype on any input faults afterwards, before any output element is written,
inside `Tensor::data<float>()` (tensor.hpp: Q4 tensors reject typed access,
and any other dtype with element size ≠ 4 rejects it too). -/

/-- The fault, if any, raised by `FlashAttention::forward` before any output
element is produced, as a function of the three input tensors. -/
def flashForward_validate (q k v : Tensor) : Except TensorError Unit :=
  if q.shape.length ≠ 3 ∨ k.shape.length ≠ 3 ∨ v.shape.length ≠ 3 then
    .error .ShapeError
  else if q.shape.getD 0 0 ≠ k.shape.getD 0 0 ∨ q.shape.getD 0 0 ≠ v.shape.getD 0 0 then
    .error .ShapeError
  else if q.shape.getD 2 0 ≠ k.shape.getD 2 0 ∨ q.shape.getD 2 0 ≠ v.shape.getD 2 0 then
    .error .ShapeError
  else if q.dtype ≠ .FP32 ∨ k.dtype ≠ .FP32 ∨ v.dtype ≠ .FP32 then
    .error .TypeError
  else
    .ok ()

/-- C9 counterexample: a sequence-length mismatch (query has 2 positions,
key has 1) passes every check of `FlashAttention::forward` — the kernel does
not fail, contradicting the claim that any shape mismatch among the three
inputs, including a sequence-length mismatch, fails immediately. -/
theorem flash_forward_seq_mismatch_not_checked :
    flashForward_validate
        (Tensor.mk [1, 2, 4] .FP32 []) (Tensor.mk [1, 1, 4] .FP32 [])
        (Tensor.mk [1, 2, 4] .FP32 [])
      = .ok () ∧
    (Tensor.mk [1, 2, 4] .FP32 []).shape.getD 1 0
      ≠ (Tensor.mk [1, 1, 4] .FP32 []).shape.getD 1 0 :=
  ⟨rfl, by decide⟩

/-- C9 (amended): `FlashAttention::forward` fails before producing output
exactly when an input is not rank 3, or the batch or hidden dimension of
key/value differs from the query's, or an input dtype is not F32; rank,
batch and hidden violations raise `ShapeError` and dtype violations raise
`TypeError`.  Sequence-length mismatches and a hidden size that is not
`num_heads * head_dim` are NOT checked: out-of-range elements are silently
skipped by the copy guards (`if (src_idx < ...numel())`). -/
theorem flash_forward_validate_spec (q k v : Tensor) :
    flashForward_validate q k v = .ok () ↔
      (q.shape.length = 3 ∧ k.shape.length = 3 ∧ v.shape.length = 3 ∧
       q.shape.getD 0 0 = k.shape.getD 0 0 ∧ q.shape.getD 0 0 = v.shape.getD 0 0 ∧
       q.shape.getD 2 0 = k.shape.getD 2 0 ∧ q.shape.getD 2 0 = v.shape.getD 2 0 ∧
       q.dtype = .FP32 ∧ k.dtype = .FP32 ∧ v.dtype = .FP32) := by
  unfold flashForward_validate
  constructor
  · intro h
    by_cases h1 : q.shape.length ≠ 3 ∨ k.shape.length ≠ 3 ∨ v.shape.length ≠ 3
    · rw [if_pos h1] at h; exact absurd h (by simp)
    · rw [if_neg h1] at h
      by_cases h2 : q.shape.getD 0 0 ≠ k.shape.getD 0 0 ∨ q.shape.getD 0 0 ≠ v.shape.getD 0 0
      · rw [if_pos h2] at h; exact absurd h (by simp)
      · rw [if_neg h2] at h
        by_cases h3 : q.shape.getD 2 0 ≠ k.shape.getD 2 0 ∨ q.shape.getD 2 0 ≠ v.shape.getD 2 0
        · rw [if_pos h3] at h; exact absurd h (by simp)
        · rw [if_neg h3] at h
          by_cases h4 : q.dtype ≠ .FP32 ∨ k.dtype ≠ .FP32 ∨ v.dtype ≠ .FP32
          · rw [if_pos h4] at h; exact absurd h (by simp)
          · push_neg at h1 h2 h3 h4
            exact ⟨h1.1, h1.2.1, h1.2.2, h2.1, h2.2, h3.1, h3.2, h4.1, h4.2.1, h4.2.2⟩
  · intro h
    obtain ⟨a1, a2, a3, b1, b2, c1, c2, d1, d2, d3⟩ := h
    rw [if_neg (by push_neg; exact ⟨a1, a2, a3⟩), if_neg (by push_neg; exact ⟨b1, b2⟩),
      if_neg (by push_neg; exact ⟨c1, c2⟩), if_neg (by push_neg; exact ⟨d1, d2, d3⟩)]

/-! ## Arena allocator `TensorPool` (src/alloc.hpp, unnamed/part_002)

A chunk's `data` pointer is modelled as `Option ℕ` (an abstract address,
`none` for `nullptr`).  `AlignedAllocator::allocate` hands out fresh
addresses (`nullptr` for a zero-size request); the pool tracks the next
fresh address in `next_addr`. -/

structure Chunk where
  data : Option ℕ
  size : ℕ
  deriving DecidableEq, Repr

structure TensorPool where
  chunks : List Chunk
  total_allocated : ℕ
  total_used : ℕ
  next_addr : ℕ
  deriving DecidableEq, Repr

/-- The `TensorPool(initial_size)` constructor: a single chunk backed by a
fresh aligned allocation. -/
def TensorPool.create (initial_size : ℕ) : TensorPool :=
  { chunks := [⟨if initial_size = 0 then none else some 0, initial_size⟩],
    total_allocated := initial_size,
    total_used := 0,
    next_addr := initial_size }

/-- The first-fit walk of `TensorPool::allocate` (part_002 lines 59-78):
take the first chunk with `size ≥ request` and a non-null `data`; split off
the remainder when oversized; mark the taken chunk `data = nullptr`,
`size = 0`.  Returns the served address and the updated chunk list, or
`none` when no chunk fits. -/
def allocateFirstFit (chunks : List Chunk) (size : ℕ) : Option (ℕ × List Chunk) :=
  match chunks with
  | [] => none
  | c :: rest =>
    match c.data with
    | some addr =>
      if size ≤ c.size then
        some (addr,
          ⟨none, 0⟩ ::
            (if size < c.size then [⟨some (addr + size), c.size - size⟩] else []) ++ rest)
      else
        match allocateFirstFit rest size with
        | some (a, rest') => some (a, c :: rest')
        | none => none
    | none =>
      match allocateFirstFit rest size with
      | some (a, rest') => some (a, c :: rest')
      | none => none

/-- `TensorPool::allocate` (part_002 lines 57-91): first-fit, else allocate
a new chunk of `max(size, total_allocated/2)` bytes, link it in at the head
and retry.  The C++ retry is a recursive call; it terminates after one
round because the fresh head chunk fits any `size > 0` request, so it is
unfolded once here (`none` stands for the diverging `size = 0` corner the
retry can never serve). -/
def TensorPool.allocate (p : TensorPool) (size : ℕ) : Option (ℕ × TensorPool) :=
  match allocateFirstFit p.chunks size with
  | some (addr, cs) =>
    some (addr, { p with chunks := cs, total_used := p.total_used + size })
  | none =>
    let new_size := max size (p.total_allocated / 2)
    let p' : TensorPool :=
      { chunks := ⟨if new_size = 0 then none else some p.next_addr, new_size⟩ :: p.chunks,
        total_allocated := p.total_allocated + new_size,
        total_used := p.total_used,
        next_addr := p.next_addr + new_size }
    match allocateFirstFit p'.chunks size with
    | some (addr, cs) =>
      some (addr, { p' with chunks := cs, total_used := p'.total_used + size })
    | none => none

/-- `TensorPool::reset` (part_002 lines 93-101): sets every chunk's `data`
to `nullptr` and its `size` to 0, and zeroes `total_used`. -/
def TensorPool.reset (p : TensorPool) : TensorPool :=
  { p with chunks := p.chunks.map (fun _ => ⟨none, 0⟩), total_used := 0 }

/-- The concrete C4 trace: build a 1024-byte pool, serve a 100-byte
allocation, `reset()`, then request 100 bytes again; the result is the new
`total_allocated`. -/
def tensorPoolResetTrace : Option ℕ := do
  let r1 ← (TensorPool.create 1024).allocate 100
  let r2 ← r1.2.reset.allocate 100
  pure r2.2.total_allocated

/-- C4: refuted by the code.  `reset()` does not mark chunks free — it nulls
every chunk's `data` pointer and zeroes its recorded `size`, which is
exactly the state `allocate` uses to mark a chunk as *taken*.  Consequently
(first conjunct) the first-fit search can never succeed on a reset pool, for
any request size, and (remaining conjuncts) the concrete trace
"allocate 100, reset, allocate 100" grows `total_allocated` from 1024 to
1536 bytes instead of reusing the existing chunk. -/
theorem allocateFirstFit_all_null (l : List Chunk) (size : ℕ)
    (h : ∀ c ∈ l, c.data = none) : allocateFirstFit l size = none := by
  induction l with
  | nil => rfl
  | cons c rest ih =>
    have hc : c.data = none := h c (List.mem_cons_self c rest)
    unfold allocateFirstFit
    rw [hc, ih (fun d hd => h d (List.mem_cons_of_mem c hd))]

theorem tensorPool_reset_defeats_reuse :
    (∀ p : TensorPool, ∀ size : ℕ, allocateFirstFit p.reset.chunks size = none) ∧
    (TensorPool.create 1024).total_allocated = 1024 ∧
    tensorPoolResetTrace = some 1536 := by
  refine ⟨?_, rfl, by decide⟩
  intro p size
  apply allocateFirstFit_all_null
  intro c hc
  rw [TensorPool.reset] at hc
  simp only [List.mem_map] at hc
  obtain ⟨_, _, rfl⟩ := hc
  rfl

/-! ## GEMM kernels (src/src/kernels/gemm_ref.cpp, optimized/simd_gemm.cpp) -/

/-- A single store `C[i] = v` into a flat rational buffer. -/
def writeCellQ (f : ℕ → ℚ) (i : ℕ) (v : ℚ) : ℕ → ℚ :=
  fun j => if j = i then v else f j

/-- The iteration starts of a C loop `for (x = 0; x < n; x += bs)`. -/
def blockStarts (n bs : ℕ) : List ℕ :=
  (List.range ((n + bs - 1) / bs)).map (· * bs)

/-- `simple_matmul` (gemm_ref.cpp lines 12-23), the reference triple loop:
`C[m*N+n] = alpha * Σ_k A[m*K+k] * B[k*N+n] + beta * C[m*N+n]`. -/
def simple_matmul (A B C : ℕ → ℚ) (M K N : ℕ) (alpha beta : ℚ) : ℕ → ℚ :=
  (List.range M).foldl (fun Cm m =>
    (List.range N).foldl (fun Cn n =>
      writeCellQ Cn (m * N + n)
        (alpha * (∑ k ∈ Finset.range K, A (m * K + k) * B (k * N + n))
          + beta * Cn (m * N + n)))
      Cm) C

/-- `matmul_avx2_f32` (simd_gemm.cpp lines 10-57), embedded loop for loop.
Two aspects of the source are preserved exactly as written:
* the store `C[mm*N+nn] = alpha*total + beta*C[mm*N+nn]` sits INSIDE the
  k-block loop, so the cell is rewritten once per k block;
* the vector load of B is `_mm256_loadu_ps(&B[kk*N + nn])`, eight
  consecutive addresses `B[kk*N+nn+i]`, while the scalar remainder loop
  reads `B[kk*N + nn]` with `kk` varying (a column walk).
Per chunk the eight lanes accumulate `A[mm*K+kk+i] * B[kk*N+nn+i]` and are
horizontally added at the end; over exact rationals that total is the
`Finset` sum below. -/
def matmul_avx2_f32 (A B C : ℕ → ℚ) (M K N : ℕ) (alpha beta : ℚ) : ℕ → ℚ :=
  (blockStarts M 8).foldl (fun Cm m =>
    (blockStarts N 8).foldl (fun Cn n =>
      (blockStarts K 8).foldl (fun Ck k =>
        let m_end := min (m + 8) M
        let n_end := min (n + 8) N
        let k_end := min (k + 8) K
        (List.range' m (m_end - m)).foldl (fun Cmm mm =>
          (List.range' n (n_end - n)).foldl (fun Cnn nn =>
            let nchunks := (k_end - k) / 8
            let vecSum := ∑ j ∈ Finset.range nchunks, ∑ i ∈ Finset.range 8,
              A (mm * K + (k + 8 * j) + i) * B ((k + 8 * j) * N + nn + i)
            let kk := k + 8 * nchunks
            let scalarSum := ∑ t ∈ Finset.range (k_end - kk),
              A (mm * K + kk + t) * B ((kk + t) * N + nn)
            writeCellQ Cnn (mm * N + nn)
              (alpha * (scalarSum + vecSum) + beta * Cnn (mm * N + nn)))
            Cmm) Ck) Cn) Cm) C

/-- C3: refuted by the code.  At `M = N = 1`, `K = 9` (K not a multiple of
the 8-wide chunk), all-ones inputs, `alpha = 1`, `beta = 0`: the reference
kernel returns `C[0] = 9` but the AVX2 kernel returns `C[0] = 1`, because
its second k block overwrites the first block's partial sum
(`C = alpha*partial + beta*C` executed once per k block discards the
previous partial when `beta = 0`).  The relative error is 8/9, far beyond
the 1e-5 tolerance the claim allows. -/
theorem gemm_avx2_divergence :
    simple_matmul (fun _ => 1) (fun _ => 1) (fun _ => 0) 1 9 1 1 0 0 = 9 ∧
    matmul_avx2_f32 (fun _ => 1) (fun _ => 1) (fun _ => 0) 1 9 1 1 0 0 = 1 := by
  constructor
  · norm_num [simple_matmul, writeCellQ, List.range_succ, Finset.sum_range_succ]
  · norm_num [matmul_avx2_f32, blockStarts, writeCellQ, List.range_succ, List.range',
      Finset.sum_range_succ]

/-! ## Causal attention engine (src/src/kernels/optimized/flash_attention.cpp)

`FlashAttention::compute_attention` works on flat `[batch, seq, head_dim]`
float buffers; position `(b, s, d)` lives at flat index `b*S*D + s*D + d`.
For each query position `s` it scores the causal window `t ∈ [0, s]`,
stabilizes with the running maximum, exponentiates, normalizes when the
exponential sum is positive and takes the weighted sum of values.
`std::exp` is the parameter `e`. -/

/-- `KVCache` (transformer.hpp lines 9-13). -/
structure KVCache where
  keys : List Tensor
  values : List Tensor
  current_length : ℤ
  deriving DecidableEq, Repr

/-- The raw scaled score of query position `s` against key position `t`
(flash_attention.cpp lines 126-136): `scale * Σ_d Q[b,s,d] * K[b,t,d]`. -/
def attnScore (q k : ℕ → ℚ) (scale : ℚ) (S D b s t : ℕ) : ℚ :=
  scale * ∑ d ∈ Finset.range D, q (b * S * D + s * D + d) * k (b * S * D + t * D + d)

/-- The running maximum of the causal window's scores (lines 119, 137).
The C++ accumulator starts at `-∞`; the window `t ∈ [0, s]` is never empty,
and folding `max` from `-∞` over a nonempty list equals folding from the
list's first element (`max(-∞, x) = x`), so the fold is seeded with the
score at `t = 0`. -/
def attnMaxScore (q k : ℕ → ℚ) (scale : ℚ) (S D b s : ℕ) : ℚ :=
  ((List.range (s + 1)).map (attnScore q k scale S D b s)).foldl max
    (attnScore q k scale S D b s 0)

/-- The stabilized exponential `exp(score[t] - max_score)` (line 142). -/
def attnExpScore (e : ℚ → ℚ) (q k : ℕ → ℚ) (scale : ℚ) (S D b s t : ℕ) : ℚ :=
  e (attnScore q k scale S D b s t - attnMaxScore q k scale S D b s)

/-- The exponential sum `sum_exp` over the causal window (line 143). -/
def attnSumExp (e : ℚ → ℚ) (q k : ℕ → ℚ) (scale : ℚ) (S D b s : ℕ) : ℚ :=
  ∑ t ∈ Finset.range (s + 1), attnExpScore e q k scale S D b s t

/-- The attention weight finally stored in `scores[t]`: normalized when the
`sum_exp > 0` guard holds, the raw exponential otherwise (lines 146-150). -/
def attnWeight (e : ℚ → ℚ) (q k : ℕ → ℚ) (scale : ℚ) (S D b s t : ℕ) : ℚ :=
  if 0 < attnSumExp e q k scale S D b s then
    attnExpScore e q k scale S D b s t / attnSumExp e q k scale S D b s
  else
    attnExpScore e q k scale S D b s t

/-- The output element at `(b, s, d)`: the weighted sum of values over the
causal window (lines 153-163). -/
def attnOutput (e : ℚ → ℚ) (q k v : ℕ → ℚ) (scale : ℚ) (S D b s d : ℕ) : ℚ :=
  ∑ t ∈ Finset.range (s + 1),
    attnWeight e q k scale S D b s t * v (b * S * D + t * D + d)

/-- `FlashAttention::compute_attention` (flash_attention.cpp lines 102-166):
writes the output element for every `(b, s, d)` with `b < B`, `s < S`,
`d < D` — distinct flat indices `i < B*S*D`, decomposed by `b = i/(S*D)`,
`s = i%(S*D)/D`, `d = i%D` — and returns the `KVCache*` argument exactly as
the C++ body leaves it: the parameter `cache` is never read or written
anywhere in the function. -/
def compute_attention (e : ℚ → ℚ) (q k v out : ℕ → ℚ) (B S D : ℕ) (scale : ℚ)
    (cache : KVCache) : (ℕ → ℚ) × KVCache :=
  (fun i =>
    if i < B * S * D then
      attnOutput e q k v scale S D (i / (S * D)) (i % (S * D) / D) (i % D)
    else out i,
   cache)

theorem attn_flat_lt (B S D b s d : ℕ) (hb : b < B) (hs : s < S) (hd : d < D) :
    b * S * D + s * D + d < B * S * D := by
  have h1 : s * D + d < S * D := by
    calc s * D + d < s * D + D := by omega
    _ = (s + 1) * D := by ring
    _ ≤ S * D := Nat.mul_le_mul_right D hs
  calc b * S * D + s * D + d = S * D * b + (s * D + d) := by ring
  _ < S * D * b + S * D := by omega
  _ = S * D * (b + 1) := by ring
  _ ≤ S * D * B := Nat.mul_le_mul_left (S * D) hb
  _ = B * S * D := by ring

theorem attn_flat_decompose (S D b s d : ℕ) (hs : s < S) (hd : d < D) :
    (b * S * D + s * D + d) / (S * D) = b ∧
    (b * S * D + s * D + d) % (S * D) / D = s ∧
    (b * S * D + s * D + d) % D = d := by
  have hD : 0 < D := by omega
  have h1 : s * D + d < S * D := by
    calc s * D + d < s * D + D := by omega
    _ = (s + 1) * D := by ring
    _ ≤ S * D := Nat.mul_le_mul_right D hs
  have hSD : 0 < S * D := by omega
  have hflat : b * S * D + s * D + d = S * D * b + (s * D + d) := by ring
  refine ⟨?_, ?_, ?_⟩
  · rw [hflat, Nat.mul_add_div hSD, Nat.div_eq_of_lt h1]
    omega
  · rw [hflat, Nat.mul_add_mod, Nat.mod_eq_of_lt h1]
    have hds : s * D + d = D * s + d := by ring
    rw [hds, Nat.mul_add_div hD, Nat.div_eq_of_lt hd]
    omega
  · have hdd : b * S * D + s * D + d = D * (b * S + s) + d := by ring
    rw [hdd, Nat.mul_add_mod, Nat.mod_eq_of_lt hd]

/-- The output buffer of `compute_attention` at the flat position of
`(b, s, d)`. -/
theorem compute_attention_at (e : ℚ → ℚ) (q k v out : ℕ → ℚ) (B S D : ℕ) (scale : ℚ)
    (cache : KVCache) (b s d : ℕ) (hb : b < B) (hs : s < S) (hd : d < D) :
    (compute_attention e q k v out B S D scale cache).1 (b * S * D + s * D + d)
      = attnOutput e q k v scale S D b s d := by
  obtain ⟨h1, h2, h3⟩ := attn_flat_decompose S D b s d hs hd
  unfold compute_attention
  simp only [if_pos (attn_flat_lt B S D b s d hb hs hd), h1, h2, h3]

/-! ## C1: the KVCache is dead weight -/

/-- C1: refuted by the code.  First conjunct: `compute_attention` returns
its `KVCache` argument untouched — nothing is appended, `current_length`
never advances — and its output does not depend on the cache at all, for
every input.  Remaining conjuncts: the claim's 5-token scenario.  A full
pass over positions 0..4 with `Q = K = 0`, `V = [0,1,2,3,4]`, head_dim 1
gives output 2 at position 4 (uniform softmax weights 1/5), while the
incremental decode of position 4 alone against the (ignored) cache gives 4:
the two disagree, refuting the incremental-equivalence claim.  All
exponent arguments in this scenario are 0, so `e := fun _ => 1` computes
exactly what the real `exp` computes here (`exp 0 = 1`). -/
theorem compute_attention_cache_unused :
    (∀ (e : ℚ → ℚ) (q k v out : ℕ → ℚ) (B S D : ℕ) (scale : ℚ) (cache : KVCache),
      (compute_attention e q k v out B S D scale cache).2 = cache ∧
      (compute_attention e q k v out B S D scale cache).1
        = (compute_attention e q k v out B S D scale (KVCache.mk [] [] 0)).1) ∧
    (compute_attention (fun _ => 1) (fun _ => 0) (fun _ => 0) (fun i => (i : ℚ)) (fun _ => 0)
        1 5 1 1 (KVCache.mk [] [] 0)).1 4 = 2 ∧
    (compute_attention (fun _ => 1) (fun _ => 0) (fun _ => 0) (fun _ => (4 : ℚ)) (fun _ => 0)
        1 1 1 1 (KVCache.mk [] [] 0)).1 0 = 4 := by
  refine ⟨fun e q k v out B S D scale cache => ⟨rfl, rfl⟩, ?_, ?_⟩
  · norm_num [compute_attention, attnOutput, attnWeight, attnSumExp, attnExpScore,
      attnMaxScore, attnScore, List.range_succ, Finset.sum_range_succ]
  · norm_num [compute_attention, attnOutput, attnWeight, attnSumExp, attnExpScore,
      attnMaxScore, attnScore, List.range_succ, Finset.sum_range_succ]

/-! ## C5: causal masking -/

/-- C5: the output of `compute_attention` at query position `s` depends
only on key/value entries at positions `t ≤ s` of the same batch element:
two runs whose key and value buffers agree on positions `t < s + 1` (for
all feature coordinates `j < D`) produce identical outputs at `(b, s, d)`,
whatever the buffers hold at positions `t > s`, and whatever the untouched
output buffers and caches are. -/
theorem attention_causal_mask (e : ℚ → ℚ) (q k v k' v' out out' : ℕ → ℚ)
    (B S D : ℕ) (scale : ℚ) (cache cache' : KVCache) (b s d : ℕ)
    (hb : b < B) (hs : s < S) (hd : d < D)
    (hk : ∀ t, t < s + 1 → ∀ j, j < D →
      k (b * S * D + t * D + j) = k' (b * S * D + t * D + j))
    (hv : ∀ t, t < s + 1 → ∀ j, j < D →
      v (b * S * D + t * D + j) = v' (b * S * D + t * D + j)) :
    (compute_attention e q k v out B S D scale cache).1 (b * S * D + s * D + d)
      = (compute_attention e q k' v' out' B S D scale cache').1 (b * S * D + s * D + d) := by
  rw [compute_attention_at e q k v out B S D scale cache b s d hb hs hd,
    compute_attention_at e q k' v' out' B S D scale cache' b s d hb hs hd]
  have hscore : ∀ t, t < s + 1 →
      attnScore q k scale S D b s t = attnScore q k' scale S D b s t := by
    intro t ht
    unfold attnScore
    congr 1
    refine Finset.sum_congr rfl ?_
    intro j hj
    rw [hk t ht j (Finset.mem_range.1 hj)]
  have hmax : attnMaxScore q k scale S D b s = attnMaxScore q k' scale S D b s := by
    unfold attnMaxScore
    rw [hscore 0 (by omega)]
    congr 1
    refine List.map_congr_left ?_
    intro t ht
    exact hscore t (List.mem_range.1 ht)
  have hexp : ∀ t, t < s + 1 →
      attnExpScore e q k scale S D b s t = attnExpScore e q k' scale S D b s t := by
    intro t ht
    unfold attnExpScore
    rw [hscore t ht, hmax]
  have hsum : attnSumExp e q k scale S D b s = attnSumExp e q k' scale S D b s := by
    unfold attnSumExp
    refine Finset.sum_congr rfl ?_
    intro t ht
    exact hexp t (Finset.mem_range.1 ht)
  have hw : ∀ t, t < s + 1 →
      attnWeight e q k scale S D b s t = attnWeight e q k' scale S D b s t := by
    intro t ht
    unfold attnWeight
    rw [hexp t ht, hsum]
  unfold attnOutput
  refine Finset.sum_congr rfl ?_
  intro t ht
  rw [hw t (Finset.mem_range.1 ht), hv t (Finset.mem_range.1 ht) d hd]

/-- Witness for C5: batch 1, two positions, head_dim 1.  The primed key and
value buffers differ from the unprimed ones only at flat index 1, which is
position `t = 1 > s = 0`; the outputs at position 0 coincide. -/
theorem attention_causal_mask_witness :
    (compute_attention id (fun _ => 0) (fun _ => 0) (fun _ => 1) (fun _ => 0)
        1 2 1 1 (KVCache.mk [] [] 0)).1 0
      = (compute_attention id (fun _ => 0) (fun i => if i = 1 then 5 else 0)
          (fun i => if i = 1 then 7 else 1) (fun _ => 0)
          1 2 1 1 (KVCache.mk [] [] 0)).1 0 := by
  have h := attention_causal_mask id (fun _ => 0) (fun _ => 0) (fun _ => 1)
    (fun i => if i = 1 then 5 else 0) (fun i => if i = 1 then 7 else 1)
    (fun _ => 0) (fun _ => 0) 1 2 1 1 (KVCache.mk [] [] 0) (KVCache.mk [] [] 0)
    0 0 0 (by decide) (by decide) (by decide) (by decide) (by decide)
  simpa using h

/-! ## C10: the softmax guard always normalizes -/

theorem foldl_max_ge (l : List ℚ) (a : ℚ) :
    a ≤ l.foldl max a ∧ ∀ x ∈ l, x ≤ l.foldl max a := by
  induction l generalizing a with
  | nil => exact ⟨le_refl a, by simp⟩
  | cons y ys ih =>
    refine ⟨le_trans (le_max_left a y) (ih (max a y)).1, ?_⟩
    intro x hx
    rcases List.mem_cons.1 hx with rfl | hx
    · exact le_trans (le_max_right a x) (ih (max a x)).1
    · exact (ih (max a y)).2 x hx

theorem foldl_max_mem (l : List ℚ) (a : ℚ) :
    l.foldl max a = a ∨ l.foldl max a ∈ l := by
  induction l generalizing a with
  | nil => left; rfl
  | cons y ys ih =>
    rcases ih (max a y) with h | h
    · rcases max_choice a y with hm | hm
      · left; rw [List.foldl_cons, h, hm]
      · right; rw [List.foldl_cons, h, hm]; exact List.mem_cons_self y ys
    · right; exact List.mem_cons_of_mem y h

/-- C10: for every query position the causal window `[0, s]` is nonempty
and the maximizing score is attained inside it, so — for any exponential
function that is strictly positive with `e 0 = 1`, as the real `exp` is —
the exponential sum is at least 1; hence the `sum_exp > 0` guard of
`compute_attention` always takes the normalizing branch (every attention
weight equals `expScore / sumExp`, i.e. the unnormalized fallback is
unreachable), and the weights used for the value-weighted sum are
non-negative and sum to 1 over the window. -/
theorem attention_softmax_guard (e : ℚ → ℚ) (q k : ℕ → ℚ) (scale : ℚ) (S D b s : ℕ)
    (he : ∀ x, 0 < e x) (he0 : e 0 = 1) :
    1 ≤ attnSumExp e q k scale S D b s ∧
    0 < attnSumExp e q k scale S D b s ∧
    (∀ t, attnWeight e q k scale S D b s t
        = attnExpScore e q k scale S D b s t / attnSumExp e q k scale S D b s) ∧
    (∀ t, 0 ≤ attnWeight e q k scale S D b s t) ∧
    ∑ t ∈ Finset.range (s + 1), attnWeight e q k scale S D b s t = 1 := by
  have hattain : ∃ t0 ∈ Finset.range (s + 1),
      attnScore q k scale S D b s t0 = attnMaxScore q k scale S D b s := by
    unfold attnMaxScore
    rcases foldl_max_mem ((List.range (s + 1)).map (attnScore q k scale S D b s))
        (attnScore q k scale S D b s 0) with h | h
    · exact ⟨0, Finset.mem_range.2 (by omega), h.symm⟩
    · obtain ⟨t0, ht0, hval⟩ := List.mem_map.1 h
      exact ⟨t0, Finset.mem_range.2 (List.mem_range.1 ht0), hval⟩
  obtain ⟨t0, ht0, hval⟩ := hattain
  have hone : 1 ≤ attnSumExp e q k scale S D b s := by
    have hterm : attnExpScore e q k scale S D b s t0 = 1 := by
      unfold attnExpScore
      rw [hval, sub_self, he0]
    calc (1 : ℚ) = attnExpScore e q k scale S D b s t0 := hterm.symm
    _ ≤ ∑ t ∈ Finset.range (s + 1), attnExpScore e q k scale S D b s t :=
        Finset.single_le_sum (fun t _ => (he _).le) ht0
    _ = attnSumExp e q k scale S D b s := rfl
  have hpos : 0 < attnSumExp e q k scale S D b s := lt_of_lt_of_le one_pos hone
  have hnorm : ∀ t, attnWeight e q k scale S D b s t
      = attnExpScore e q k scale S D b s t / attnSumExp e q k scale S D b s := by
    intro t
    unfold attnWeight
    rw [if_pos hpos]
  refine ⟨hone, hpos, hnorm, ?_, ?_⟩
  · intro t
    rw [hnorm t]
    exact div_nonneg (he _).le hpos.le
  · have : ∑ t ∈ Finset.range (s + 1), attnWeight e q k scale S D b s t
        = (∑ t ∈ Finset.range (s + 1), attnExpScore e q k scale S D b s t)
            / attnSumExp e q k scale S D b s := by
      rw [Finset.sum_div]
      exact Finset.sum_congr rfl (fun t _ => hnorm t)
    rw [this]
    exact div_self (ne_of_gt hpos)

/-- Witness for C10 at a concrete configuration (the constant-one
exponential satisfies both hypotheses; `exp 0 = 1` and positivity are
exactly what the real exponential provides). -/
theorem attention_softmax_guard_witness :
    1 ≤ attnSumExp (fun _ => 1) (fun _ => 0) (fun _ => 0) 1 1 1 0 0 ∧
    0 < attnSumExp (fun _ => 1) (fun _ => 0) (fun _ => 0) 1 1 1 0 0 ∧
    (∀ t, attnWeight (fun _ => 1) (fun _ => 0) (fun _ => 0) 1 1 1 0 0 t
        = attnExpScore (fun _ => 1) (fun _ => 0) (fun _ => 0) 1 1 1 0 0 t
            / attnSumExp (fun _ => 1) (fun _ => 0) (fun _ => 0) 1 1 1 0 0) ∧
    (∀ t, 0 ≤ attnWeight (fun _ => 1) (fun _ => 0) (fun _ => 0) 1 1 1 0 0 t) ∧
    ∑ t ∈ Finset.range (0 + 1), attnWeight (fun _ => 1) (fun _ => 0) (fun _ => 0) 1 1 1 0 0 t = 1 :=
  attention_softmax_guard (fun _ => 1) (fun _ => 0) (fun _ => 0) 1 1 1 0 0
    (fun x => by norm_num) rfl

/-! ## Q4 packing (`pack_q4_rowwise`, q4_rowwise.cpp lines 24-51)

`pack_q4_rowwise` first copies the externally supplied scales to
`scales_out` verbatim (an identity in the functional model), then walks each
row in steps of two columns, quantizes `weights[m*K+k] / scale[m]` with
`std::round` (round half away from zero), converts the rounded value with
`static_cast<int8_t>` BEFORE clamping to `[-8, 7]`, and stores the two
two's-complement nibbles in the byte at index `(m*K+k)/2`.  The `int8_t`
cast is modelled as the two's-complement wrap into `[-128, 127]`: that is
value-preserving exactly on `[-128, 127]`, and for a rounded value outside
that range (where the C++ float-to-`int8_t` conversion is undefined
behaviour) it is what the common x86 lowering produces — e.g. 200 wraps to
-56, which the clamp then pins to the WRONG end, -8. -/

/-- A single store into a flat byte buffer. -/
def writeByte (f : ℕ → ℕ) (i v : ℕ) : ℕ → ℕ :=
  fun j => if j = i then v else f j

/-- `std::round`: round half away from zero. -/
def roundHalfAwayFromZero (x : ℚ) : ℤ :=
  if x < 0 then -⌊-x + 1 / 2⌋ else ⌊x + 1 / 2⌋

/-- The clamp `std::max(int8_t(-8), std::min(int8_t(7), q))`. -/
def clampQ4 (q : ℤ) : ℤ := max (-8) (min 7 q)

/-- `static_cast<int8_t>`: two's-complement wrap into `[-128, 127]`. -/
def int8Cast (q : ℤ) : ℤ := (q + 128) % 256 - 128

/-- The low nibble of `static_cast<uint8_t>(q)`, i.e. `uint8_t(q) & 0x0F`:
the two's-complement residue of `q` modulo 16. -/
def q4Nibble (q : ℤ) : ℕ := (q % 16).toNat

/-- Quantization of one weight, in source order:
`clamp(int8_t(round(w / scale)), -8, 7)`. -/
def packQuant (w scale : ℚ) : ℤ := clampQ4 (int8Cast (roundHalfAwayFromZero (w / scale)))

/-- The byte assembled for the column pair starting at even `k` of row `m`:
low nibble from column `k`, high nibble from column `k+1` when it exists. -/
def packByte (weights scales : ℕ → ℚ) (K m k : ℕ) : ℕ :=
  let lo := q4Nibble (packQuant (weights (m * K + k)) (scales m))
  if k + 1 < K then
    lo ||| (q4Nibble (packQuant (weights (m * K + k + 1)) (scales m)) <<< 4)
  else lo

/-- The ordered store sequence of the pack loop nest: rows `m = 0..M-1`
outer, pair starts `k = 0, 2, ...` (i.e. `k = 2*j`, `⌈K/2⌉` pairs) inner,
each storing its byte at index `(m*K + 2*j)/2`. -/
def packWrites (weights scales : ℕ → ℚ) (M K : ℕ) : List (ℕ × ℕ) :=
  (List.range M).flatMap (fun m =>
    (List.range ((K + 1) / 2)).map (fun j =>
      ((m * K + 2 * j) / 2, packByte weights scales K m (2 * j))))

/-- `pack_q4_rowwise`: execute the stores in program order over the
caller's `qweights` buffer (later stores win, exactly as in C). -/
def pack_q4_rowwise (weights scales : ℕ → ℚ) (qweights : ℕ → ℕ) (M K : ℕ) : ℕ → ℕ :=
  (packWrites weights scales M K).foldl (fun f p => writeByte f p.1 p.2) qweights

/-- The value left at index `i` by a sequence of stores: the last store to
`i`, if any. -/
def lastWrite (l : List (ℕ × ℕ)) (i : ℕ) : Option ℕ :=
  match l with
  | [] => none
  | p :: rest =>
    match lastWrite rest i with
    | some v => some v
    | none => if p.1 = i then some p.2 else none

theorem foldl_writeByte (l : List (ℕ × ℕ)) (f0 : ℕ → ℕ) (i : ℕ) :
    (l.foldl (fun f p => writeByte f p.1 p.2) f0) i = (lastWrite l i).getD (f0 i) := by
  induction l generalizing f0 with
  | nil => rfl
  | cons p rest ih =>
    rw [List.foldl_cons, ih]
    show _ = (match lastWrite rest i with
      | some v => some v
      | none => if p.1 = i then some p.2 else none).getD (f0 i)
    cases h : lastWrite rest i with
    | some v => simp [h]
    | none =>
      simp only [h, writeByte]
      by_cases hpi : i = p.1
      · rw [if_pos hpi, if_pos hpi.symm]
        rfl
      · rw [if_neg hpi, if_neg (fun h' => hpi h'.symm)]

theorem lastWrite_isSome_of_mem (l : List (ℕ × ℕ)) (i v : ℕ) (h : (i, v) ∈ l) :
    lastWrite l i ≠ none := by
  induction l with
  | nil => simp at h
  | cons p rest ih =>
    show (match lastWrite rest i with
      | some w => some w
      | none => if p.1 = i then some p.2 else none) ≠ none
    cases hr : lastWrite rest i with
    | some w => simp
    | none =>
      rcases List.mem_cons.1 h with rfl | hmem
      · simp
      · exact absurd hr (ih hmem)

theorem lastWrite_mem (l : List (ℕ × ℕ)) (i w : ℕ) (h : lastWrite l i = some w) :
    (i, w) ∈ l := by
  induction l with
  | nil => exact absurd h (by simp [lastWrite])
  | cons p rest ih =>
    have h' : (match lastWrite rest i with
      | some v => some v
      | none => if p.1 = i then some p.2 else none) = some w := h
    cases hr : lastWrite rest i with
    | some v =>
      rw [hr] at h'
      cases h'
      exact List.mem_cons_of_mem p (ih hr)
    | none =>
      rw [hr] at h'
      by_cases hpi : p.1 = i
      · rw [if_pos hpi] at h'
        cases h'
        have : p = (i, p.2) := by
          cases p
          simp_all
        rw [← this]
        exact List.mem_cons_self p rest
      · rw [if_neg hpi] at h'
        cases h'

theorem lastWrite_eq_of_mem_unique (l : List (ℕ × ℕ)) (i v : ℕ)
    (hmem : (i, v) ∈ l) (huniq : ∀ p ∈ l, p.1 = i → p.2 = v) :
    lastWrite l i = some v := by
  cases h : lastWrite l i with
  | none => exact absurd h (lastWrite_isSome_of_mem l i v hmem)
  | some w =>
    exact congrArg some (huniq (i, w) (lastWrite_mem l i w h) rfl)

/-- With disjoint nibbles, byte assembly is additive. -/
theorem lor_shift4_eq :
    ∀ lo hi : Fin 16, ((lo : ℕ) ||| ((hi : ℕ) <<< 4)) = (lo : ℕ) + 16 * (hi : ℕ) := by
  decide

theorem q4Nibble_lt (q : ℤ) : q4Nibble q < 16 := by
  unfold q4Nibble
  omega

/-- Two's-complement nibble round trip on the representable range. -/
theorem decode_q4_encode (q : ℤ) (h1 : -8 ≤ q) (h2 : q ≤ 7) :
    decode_q4_signed (q4Nibble q) = q := by
  interval_cases q <;> decide

theorem packByte_pair (weights scales : ℕ → ℚ) (K m k : ℕ) (hk1 : k + 1 < K) :
    packByte weights scales K m k
      = q4Nibble (packQuant (weights (m * K + k)) (scales m))
        + 16 * q4Nibble (packQuant (weights (m * K + k + 1)) (scales m)) := by
  unfold packByte
  rw [if_pos hk1]
  exact lor_shift4_eq
    ⟨_, q4Nibble_lt (packQuant (weights (m * K + k)) (scales m))⟩
    ⟨_, q4Nibble_lt (packQuant (weights (m * K + k + 1)) (scales m))⟩

theorem pair_byte_index (m j K : ℕ) (hK : K % 2 = 0) :
    (m * K + 2 * j) / 2 = m * (K / 2) + j := by
  obtain ⟨c, rfl⟩ : ∃ c, K = 2 * c := ⟨K / 2, by omega⟩
  have h1 : m * (2 * c) + 2 * j = 2 * (m * c) + 2 * j := by ring
  have h2 : (2 * c) / 2 = c := by omega
  rw [h1, h2]
  omega

theorem elem_byte_index (m k K : ℕ) (hK : K % 2 = 0) :
    (m * K + k) / 2 = m * (K / 2) + k / 2 := by
  obtain ⟨c, rfl⟩ : ∃ c, K = 2 * c := ⟨K / 2, by omega⟩
  have h1 : m * (2 * c) + k = 2 * (m * c) + k := by ring
  have h2 : (2 * c) / 2 = c := by omega
  rw [h1, h2]
  omega

/-- For even `K` the store indices of `packWrites` are pairwise distinct
(`(m*K + 2*j)/2 = m*(K/2) + j` is injective in `(m, j)`), so the byte left
at the index of pair `(m, j)` is exactly the byte computed for `(m, j)`. -/
theorem pack_byte_at (weights scales : ℕ → ℚ) (qw0 : ℕ → ℕ) (M K m j : ℕ)
    (hK : K % 2 = 0) (hm : m < M) (hj : j < K / 2) :
    pack_q4_rowwise weights scales qw0 M K (m * (K / 2) + j)
      = packByte weights scales K m (2 * j) := by
  unfold pack_q4_rowwise
  rw [foldl_writeByte]
  have hK2 : 0 < K / 2 := by omega
  have hmem : (m * (K / 2) + j, packByte weights scales K m (2 * j))
      ∈ packWrites weights scales M K := by
    unfold packWrites
    refine List.mem_flatMap.2 ⟨m, List.mem_range.2 hm, ?_⟩
    refine List.mem_map.2 ⟨j, List.mem_range.2 (by omega), ?_⟩
    rw [pair_byte_index m j K hK]
  have huniq : ∀ p ∈ packWrites weights scales M K,
      p.1 = m * (K / 2) + j → p.2 = packByte weights scales K m (2 * j) := by
    intro p hp hpi
    unfold packWrites at hp
    obtain ⟨m', hm', hp2⟩ := List.mem_flatMap.1 hp
    obtain ⟨j', hj', rfl⟩ := List.mem_map.1 hp2
    rw [List.mem_range] at hm' hj'
    have hj'2 : j' < K / 2 := by omega
    have hpi' : (m' * K + 2 * j') / 2 = m * (K / 2) + j := hpi
    rw [pair_byte_index m' j' K hK] at hpi'
    have hdiv : ∀ a b : ℕ, b < K / 2 → (a * (K / 2) + b) / (K / 2) = a := by
      intro a b hb
      rw [Nat.mul_comm, Nat.mul_add_div hK2, Nat.div_eq_of_lt hb]
      omega
    have hm'm : m' = m := by
      rw [← hdiv m' j' hj'2, hpi', hdiv m j hj]
    subst hm'm
    have hj'j : j' = j := Nat.add_left_cancel hpi'
    subst hj'j
    rfl
  rw [lastWrite_eq_of_mem_unique _ _ _ hmem huniq]
  rfl

/-- The quantized code always lies in the representable range `[-8, 7]`:
the clamp saturates, it never wraps. -/
theorem packQuant_range (w s : ℚ) : -8 ≤ packQuant w s ∧ packQuant w s ≤ 7 := by
  unfold packQuant clampQ4
  exact ⟨le_max_left _ _, max_le (by norm_num) (min_le_left _ _)⟩

/-- For even `K`, reading element `(m, k)` back out of the packed buffer
recovers the quantized code of that element: the dequantized value is
`decode(nibble) * scale = clamp(round(w/scale)) * scale`. -/
theorem dequant_pack_elem (weights scales : ℕ → ℚ) (qw0 : ℕ → ℕ) (out0 : ℕ → ℚ)
    (M K m k : ℕ) (hK : K % 2 = 0) (hm : m < M) (hk : k < K) :
    dequantize_q4_rowwise (pack_q4_rowwise weights scales qw0 M K) scales out0 M K (m * K + k)
      = (packQuant (weights (m * K + k)) (scales m) : ℚ) * scales m := by
  unfold dequantize_q4_rowwise
  rw [if_pos (row_col_lt m k M K hm hk), row_col_div m k K hk, row_col_mod m k K hk]
  have hbyteidx : (m * K + k) / 2 = m * (K / 2) + k / 2 := elem_byte_index m k K hK
  have hread : nibbleAt (pack_q4_rowwise weights scales qw0 M K) K m k
      = q4Nibble (packQuant (weights (m * K + k)) (scales m)) := by
    unfold nibbleAt
    rw [hbyteidx, pack_byte_at weights scales qw0 M K m (k / 2) hK hm (by omega)]
    rcases Nat.even_or_odd k with ⟨u, hu⟩ | ⟨u, hu⟩
    · -- even k: the pair starts at k itself and k+1 < K
      have h2u : 2 * (k / 2) = k := by omega
      have hk1 : k + 1 < K := by omega
      rw [h2u, packByte_pair weights scales K m k hk1]
      have hlo := q4Nibble_lt (packQuant (weights (m * K + k)) (scales m))
      have hhi := q4Nibble_lt (packQuant (weights (m * K + k + 1)) (scales m))
      have hkmod : k % 2 = 0 := by omega
      simp only [hkmod, if_pos]
      omega
    · -- odd k: the pair starts at k-1 and this element is the high nibble
      have h2u : 2 * (k / 2) = k - 1 := by omega
      have hk1 : (k - 1) + 1 < K := by omega
      rw [h2u, packByte_pair weights scales K m (k - 1) hk1]
      have hlo := q4Nibble_lt (packQuant (weights (m * K + (k - 1))) (scales m))
      have hhi := q4Nibble_lt (packQuant (weights (m * K + (k - 1) + 1)) (scales m))
      have hkmod : ¬ k % 2 = 0 := by omega
      have hkk : m * K + (k - 1) + 1 = m * K + k := by omega
      rw [hkk] at hhi ⊢
      simp only [hkmod, if_neg, if_false]
      omega
  rw [hread]
  have hq := packQuant_range (weights (m * K + k)) (scales m)
  rw [decode_q4_encode _ hq.1 hq.2]

/-- `std::round` is within half a unit of its argument. -/
theorem roundHalfAway_abs_le (x : ℚ) : |(roundHalfAwayFromZero x : ℚ) - x| ≤ 1 / 2 := by
  unfold roundHalfAwayFromZero
  by_cases hx : x < 0
  · rw [if_pos hx]
    have h1 : ((⌊-x + 1 / 2⌋ : ℤ) : ℚ) ≤ -x + 1 / 2 := Int.floor_le _
    have h2 : -x + 1 / 2 < (⌊-x + 1 / 2⌋ : ℤ) + 1 := Int.lt_floor_add_one _
    rw [abs_le]
    constructor <;> push_cast <;> linarith
  · rw [if_neg hx]
    have h1 : ((⌊x + 1 / 2⌋ : ℤ) : ℚ) ≤ x + 1 / 2 := Int.floor_le _
    have h2 : x + 1 / 2 < (⌊x + 1 / 2⌋ : ℤ) + 1 := Int.lt_floor_add_one _
    rw [abs_le]
    constructor <;> linarith

/-- `std::round` of a value in `[-8, 7]` stays in `[-8, 7]`. -/
theorem roundHalfAway_mem (x : ℚ) (h1 : -8 ≤ x) (h2 : x ≤ 7) :
    -8 ≤ roundHalfAwayFromZero x ∧ roundHalfAwayFromZero x ≤ 7 := by
  unfold roundHalfAwayFromZero
  by_cases hx : x < 0
  · rw [if_pos hx]
    have hu : ⌊-x + 1 / 2⌋ ≤ 8 := by
      rw [Int.floor_le_iff]
      push_cast
      linarith
    have hl : 0 ≤ ⌊-x + 1 / 2⌋ := by
      rw [Int.le_floor]
      push_cast
      linarith
    omega
  · rw [if_neg hx]
    push_neg at hx
    have hu : ⌊x + 1 / 2⌋ ≤ 7 := by
      rw [Int.floor_le_iff]
      push_cast
      linarith
    have hl : 0 ≤ ⌊x + 1 / 2⌋ := by
      rw [Int.le_floor]
      push_cast
      linarith
    omega

theorem roundHalfAway_ge_of_gt (x : ℚ) (h : 7 < x) : 7 ≤ roundHalfAwayFromZero x := by
  unfold roundHalfAwayFromZero
  rw [if_neg (by linarith)]
  rw [Int.le_floor]
  push_cast
  linarith

theorem roundHalfAway_le_of_lt (x : ℚ) (h : x < -8) : roundHalfAwayFromZero x ≤ -8 := by
  unfold roundHalfAwayFromZero
  rw [if_pos (by linarith)]
  have h8 : 8 ≤ ⌊-x + 1 / 2⌋ := by
    rw [Int.le_floor]
    push_cast
    linarith
  omega

/-- `std::round` never exceeds an upper integer bound `n ≥ 0` that bounds
its argument. -/
theorem roundHalfAway_le_of_le (x : ℚ) (n : ℤ) (hn : 0 ≤ n) (h : x ≤ (n : ℚ)) :
    roundHalfAwayFromZero x ≤ n := by
  unfold roundHalfAwayFromZero
  by_cases hx : x < 0
  · rw [if_pos hx]
    have h0 : 0 ≤ ⌊-x + 1 / 2⌋ := by
      rw [Int.le_floor]
      push_cast
      linarith
    omega
  · rw [if_neg hx]
    rw [Int.floor_le_iff]
    linarith

/-- `std::round` never undershoots a lower integer bound `n ≤ 0` that
bounds its argument. -/
theorem roundHalfAway_ge_of_ge (x : ℚ) (n : ℤ) (hn : n ≤ 0) (h : (n : ℚ) ≤ x) :
    n ≤ roundHalfAwayFromZero x := by
  unfold roundHalfAwayFromZero
  by_cases hx : x < 0
  · rw [if_pos hx]
    have h0 : ⌊-x + 1 / 2⌋ ≤ -n := by
      rw [Int.floor_le_iff]
      push_cast
      linarith
    omega
  · rw [if_neg hx]
    push_neg at hx
    have h0 : 0 ≤ ⌊x + 1 / 2⌋ := by
      rw [Int.le_floor]
      push_cast
      linarith
    omega

/-- The `int8_t` cast is value-preserving on `[-128, 127]`. -/
theorem int8Cast_id (q : ℤ) (h1 : -128 ≤ q) (h2 : q ≤ 127) : int8Cast q = q := by
  unfold int8Cast
  omega

theorem clampQ4_id (q : ℤ) (h1 : -8 ≤ q) (h2 : q ≤ 7) : clampQ4 q = q := by
  unfold clampQ4
  rw [min_eq_right h2, max_eq_right h1]

theorem clampQ4_high (q : ℤ) (h : 7 ≤ q) : clampQ4 q = 7 := by
  unfold clampQ4
  rw [min_eq_left h, max_eq_right (by norm_num)]

theorem clampQ4_low (q : ℤ) (h : q ≤ -8) : clampQ4 q = -8 := by
  unfold clampQ4
  rw [min_eq_right (by omega), max_eq_left h]

/-! ## C6: quantization round-trip -/

/-- C6 counterexample, two independent refutations of the claim as stated.

Odd `K` (conjuncts 1-5): take `M = 2`, `K = 3`, both row scales 1, and the
in-range weight 5 at element `(0, 2)` (flat index 2; the other weights are
1 at flat index 3 and 0 elsewhere).  The byte index `(m*K+k)/2` of element
`(0,2)` is 1, and for odd `K` the same byte's low nibble is also claimed by
element `(1,0)` (index `(1*3+0)/2 = 1`): the pack loop writes row 1's pair
over row 0's stored value, so dequantizing returns 1 in place of 5 — an
error of 4, far above the claimed bound `scale/2 = 1/2`.

Wrap (last conjunct): the claim's "clamped to the nearest representable
value (saturates at -8 or 7), never wrapped" also fails for large weights:
at `M = 1`, `K = 2`, scale 1, weight 200 everywhere, the source computes
`static_cast<int8_t>(round(200)) = int8_t(200) = -56` BEFORE clamping, the
clamp pins -56 to -8, and the element dequantizes to `-8` — the far end
from the nearest representable value `7`. -/
theorem q4_roundtrip_counterexample :
    (0 : ℚ) < 1 ∧ -8 * (1 : ℚ) ≤ 5 ∧ (5 : ℚ) ≤ 7 * 1 ∧
    dequantize_q4_rowwise
        (pack_q4_rowwise (fun i => if i = 2 then 5 else if i = 3 then 1 else 0)
          (fun _ => 1) (fun _ => 0) 2 3)
        (fun _ => 1) (fun _ => 0) 2 3 2 = 1 ∧
    ¬ (|dequantize_q4_rowwise
          (pack_q4_rowwise (fun i => if i = 2 then 5 else if i = 3 then 1 else 0)
            (fun _ => 1) (fun _ => 0) 2 3)
          (fun _ => 1) (fun _ => 0) 2 3 2 - 5| ≤ (1 : ℚ) / 2) ∧
    dequantize_q4_rowwise
        (pack_q4_rowwise (fun _ => (200 : ℚ)) (fun _ => 1) (fun _ => 0) 1 2)
        (fun _ => 1) (fun _ => 0) 1 2 0 = -8 := by
  have hqw1 : pack_q4_rowwise (fun i => if i = 2 then 5 else if i = 3 then 1 else 0)
      (fun _ => 1) (fun _ => 0) 2 3 1 = 1 := by
    norm_num [pack_q4_rowwise, packWrites, packByte, packQuant, clampQ4, int8Cast,
      roundHalfAwayFromZero, q4Nibble, writeByte, List.range_succ]
  have hval : dequantize_q4_rowwise
      (pack_q4_rowwise (fun i => if i = 2 then 5 else if i = 3 then 1 else 0)
        (fun _ => 1) (fun _ => 0) 2 3)
      (fun _ => 1) (fun _ => 0) 2 3 2 = 1 := by
    norm_num [dequantize_q4_rowwise, nibbleAt, decode_q4_signed, hqw1]
  have hqw0 : pack_q4_rowwise (fun _ => (200 : ℚ)) (fun _ => 1) (fun _ => 0) 1 2 0
      = 136 := by
    norm_num [pack_q4_rowwise, packWrites, packByte, packQuant, clampQ4, int8Cast,
      roundHalfAwayFromZero, q4Nibble, writeByte, List.range_succ]
    decide
  have hwrap : dequantize_q4_rowwise
      (pack_q4_rowwise (fun _ => (200 : ℚ)) (fun _ => 1) (fun _ => 0) 1 2)
      (fun _ => 1) (fun _ => 0) 1 2 0 = -8 := by
    norm_num [dequantize_q4_rowwise, nibbleAt, decode_q4_signed, hqw0]
  refine ⟨by norm_num, by norm_num, by norm_num, hval, ?_, hwrap⟩
  rw [hval]
  norm_num

/-- C6 (amended): restricted to matrices whose rows are byte-aligned in the
packed buffer — even `K` (the layout `byte (m*K+k)/2` makes distinct rows
share a byte when `K` is odd, and the pack loop then overwrites earlier
rows' trailing elements).  For every such matrix, row scale `> 0` and
element: a weight within `[-8*scale, 7*scale]` round-trips to within
`scale/2`; a weight in `(7*scale, 127*scale]` saturates to exactly
`7*scale` and a weight in `[-128*scale, -8*scale)` saturates to exactly
`-8*scale`.  The magnitude caps are where the source's
`static_cast<int8_t>` stops being value-preserving: beyond them the rounded
value wraps and the clamp lands on the wrong end (see the counterexample's
last conjunct). -/
theorem q4_roundtrip_bound (weights scales : ℕ → ℚ) (qw0 : ℕ → ℕ) (out0 : ℕ → ℚ)
    (M K m k : ℕ) (hK : K % 2 = 0) (hm : m < M) (hk : k < K) (hs : 0 < scales m) :
    (-8 * scales m ≤ weights (m * K + k) → weights (m * K + k) ≤ 7 * scales m →
      |dequantize_q4_rowwise (pack_q4_rowwise weights scales qw0 M K) scales out0 M K (m * K + k)
          - weights (m * K + k)| ≤ scales m / 2) ∧
    (7 * scales m < weights (m * K + k) → weights (m * K + k) ≤ 127 * scales m →
      dequantize_q4_rowwise (pack_q4_rowwise weights scales qw0 M K) scales out0 M K (m * K + k)
        = 7 * scales m) ∧
    (-128 * scales m ≤ weights (m * K + k) → weights (m * K + k) < -8 * scales m →
      dequantize_q4_rowwise (pack_q4_rowwise weights scales qw0 M K) scales out0 M K (m * K + k)
        = -8 * scales m) := by
  rw [dequant_pack_elem weights scales qw0 out0 M K m k hK hm hk]
  set w := weights (m * K + k) with hw
  set σ := scales m with hσ
  refine ⟨?_, ?_, ?_⟩
  · intro hlo hhi
    have hx1 : -8 ≤ w / σ := by
      rw [le_div_iff₀ hs]
      linarith
    have hx2 : w / σ ≤ 7 := by
      rw [div_le_iff₀ hs]
      linarith
    obtain ⟨hr1, hr2⟩ := roundHalfAway_mem (w / σ) hx1 hx2
    unfold packQuant
    rw [int8Cast_id _ (by omega) (by omega), clampQ4_id _ hr1 hr2]
    have habs := roundHalfAway_abs_le (w / σ)
    have hsplit : (roundHalfAwayFromZero (w / σ) : ℚ) * σ - w
        = ((roundHalfAwayFromZero (w / σ) : ℚ) - w / σ) * σ := by
      field_simp
    rw [hsplit, abs_mul, abs_of_pos hs]
    calc |(roundHalfAwayFromZero (w / σ) : ℚ) - w / σ| * σ ≤ (1 / 2) * σ :=
          mul_le_mul_of_nonneg_right habs hs.le
    _ = σ / 2 := by ring
  · intro hhi h127
    have hx : 7 < w / σ := by
      rw [lt_div_iff₀ hs]
      linarith
    have hx127 : w / σ ≤ ((127 : ℤ) : ℚ) := by
      push_cast
      rw [div_le_iff₀ hs]
      linarith
    have hr7 : 7 ≤ roundHalfAwayFromZero (w / σ) := roundHalfAway_ge_of_gt _ hx
    have hr127 : roundHalfAwayFromZero (w / σ) ≤ 127 :=
      roundHalfAway_le_of_le _ 127 (by norm_num) hx127
    unfold packQuant
    rw [int8Cast_id _ (by omega) hr127, clampQ4_high _ hr7]
    push_cast
    ring
  · intro h128 hlo
    have hx : w / σ < -8 := by
      rw [div_lt_iff₀ hs]
      linarith
    have hx128 : ((-128 : ℤ) : ℚ) ≤ w / σ := by
      push_cast
      rw [le_div_iff₀ hs]
      linarith
    have hr8 : roundHalfAwayFromZero (w / σ) ≤ -8 := roundHalfAway_le_of_lt _ hx
    have hr128 : (-128 : ℤ) ≤ roundHalfAwayFromZero (w / σ) :=
      roundHalfAway_ge_of_ge _ (-128) (by norm_num) hx128
    unfold packQuant
    rw [int8Cast_id _ hr128 (by omega), clampQ4_low _ hr8]
    push_cast
    ring

/-- Witness for C6 (amended) at `M = 1`, `K = 2`, scale 1, weight `3/2` at
element `(0,0)`: the round trip lands on 2, within the claimed half-scale
bound `|2 - 3/2| = 1/2`. -/
theorem q4_roundtrip_bound_witness :
    |dequantize_q4_rowwise
        (pack_q4_rowwise (fun _ => (3 / 2 : ℚ)) (fun _ => 1) (fun _ => 0) 1 2)
        (fun _ => 1) (fun _ => 0) 1 2 (0 * 2 + 0)
      - (fun _ => (3 / 2 : ℚ)) (0 * 2 + 0)| ≤ (fun _ => (1 : ℚ)) 0 / 2 :=
  (q4_roundtrip_bound (fun _ => (3 / 2 : ℚ)) (fun _ => 1) (fun _ => 0) (fun _ => 0)
      1 2 0 0 (by norm_num) (by norm_num) (by norm_num) (by norm_num)).1
    (by norm_num) (by norm_num)

end Hel
